import Mathlib

set_option linter.all false

/-!
Verification development for the bulk S3 bucket-deletion pipeline in
src/main.go (repository cgkades/deleteS3bucket).

The Go program is embedded shallowly:

* Pointer-typed AWS SDK fields (*string) become Option String; dereferencing
  a nil pointer is modelled as a panicked outcome, since a panic in any
  goroutine terminates the whole Go process.
* The backoff library call backoff.Retry(op, backoff.NewExponentialBackOff())
  invokes op, and on error retries after a wait, until the policy stops it
  (its default policy stops after a maximum elapsed time).  Real time is not
  embeddable, so the number of attempts the policy permits is a parameter
  named budget; the library always permits at least one attempt, which shows
  up as a hypothesis 1 <= budget where it matters.
* Goroutine fan-out plus WaitGroup.Wait is a phase barrier: every job of a
  phase is spawned before the Wait, and Wait returns only after every spawned
  executor finished.  The run is modelled as the list of externally visible
  events (job submissions, delete calls, barrier completions, the bucket
  delete call); within a phase the interleaving of the concurrent executors
  is unspecified in Go, and no theorem below depends on the within-phase
  order, only on counts, membership and cross-phase order.
-/

/-- One delete-marker listing entry (s3.DeleteMarkerEntry); the SDK fields
Key and VersionId are pointers, modelled as Option. -/
structure DeleteMarkerEntry where
  key : Option String
  versionId : Option String
deriving DecidableEq, Repr

/-- One object-version listing entry (s3.ObjectVersion). -/
structure ObjectVersion where
  key : Option String
  versionId : Option String
deriving DecidableEq, Repr

/-- One plain-object listing entry (s3.Object); it has no version identifier. -/
structure S3Object where
  key : Option String
deriving DecidableEq, Repr

/-- One page of the versions-and-markers listing
(s3.ListObjectVersionsOutput, fields DeleteMarkers and Versions). -/
structure ListObjectVersionsOutput where
  deleteMarkers : List DeleteMarkerEntry
  versions : List ObjectVersion
deriving DecidableEq, Repr

/-- One page of the plain-objects listing (s3.ListObjectsV2Output, field
Contents). -/
structure ListObjectsV2Output where
  contents : List S3Object
deriving DecidableEq, Repr

/-- The argument of one delete call (s3.DeleteObjectInput); all three SDK
fields are pointers, modelled as Option. -/
structure DeleteObjectInput where
  key : Option String
  versionId : Option String
  bucket : Option String
deriving DecidableEq, Repr

/-- Result of one job at the executor: the delete eventually succeeded, the
retry budget was exhausted, or a logging line dereferenced a nil pointer and
panicked (killing the Go process). -/
inductive JobOutcome
  | success
  | exhausted
  | panicked
deriving DecidableEq, Repr

/-- What one executor invocation did: its outcome, how many delete calls it
issued, and how many warning and info log lines it wrote. -/
structure ExecResult where
  outcome : JobOutcome
  attempts : Nat
  warns : Nat
  infos : Nat
deriving DecidableEq, Repr

/-- Whether the two logging lines of deleteS3Object (main.go lines 107 and
110) would dereference a nil pointer for this input: both lines evaluate
*s3Object.Key and *s3Object.VersionId. -/
def logDerefNil (job : DeleteObjectInput) : Bool :=
  job.key.isNone || job.versionId.isNone

/-- The retry loop of deleteS3Object (main.go lines 104-116) via
backoff.Retry: per attempt it issues svc.DeleteObject, then (if verbose) the
info line that dereferences Key and VersionId, then on error the warning
line (same dereferences) and a retry, on success it stops.  The first
argument of the recursion is the attempt number handed to ok, the second the
number of attempts the backoff policy still permits. -/
def deleteS3ObjectLoop (job : DeleteObjectInput) (verbose : Bool) (ok : Nat → Bool) :
    Nat → Nat → ExecResult
  | _, 0 => { outcome := JobOutcome.exhausted, attempts := 0, warns := 0, infos := 0 }
  | n, fuel + 1 =>
    if verbose && logDerefNil job then
      { outcome := JobOutcome.panicked, attempts := 1, warns := 0, infos := 0 }
    else
      let infos : Nat := if verbose then 1 else 0
      if ok n then
        { outcome := JobOutcome.success, attempts := 1, warns := 0, infos := infos }
      else if logDerefNil job then
        { outcome := JobOutcome.panicked, attempts := 1, warns := 0, infos := infos }
      else
        let r := deleteS3ObjectLoop job verbose ok (n + 1) fuel
        { outcome := r.outcome, attempts := r.attempts + 1, warns := r.warns + 1,
          infos := r.infos + infos }

/-- deleteS3Object (main.go lines 100-124): one job executed under
backoff.Retry.  ok n tells whether the delete call succeeds on attempt n
(numbered from 1); budget is the number of attempts the backoff policy
permits before it stops. -/
def deleteS3Object (verbose : Bool) (ok : Nat → Bool) (budget : Nat)
    (job : DeleteObjectInput) : ExecResult :=
  deleteS3ObjectLoop job verbose ok 1 budget

/-- What one deleteWorker job processing did (the historical channel-based
variant has no outcome value, so only the counters and the panic flag are
observable). -/
structure WorkerResult where
  attempts : Nat
  warns : Nat
  infos : Nat
  panicked : Bool
deriving DecidableEq, Repr

/-- The body of the fixed 4-attempt loop of deleteWorker (main.go lines
83-94): for i = 0,1,2,3 it issues svc.DeleteObject, then (if verbose) the
info line, then on error the warning line; both branches fall through to the
next iteration (the continue on success merely advances the loop), so the
loop never exits early.  First argument of the recursion: the loop index i;
second: remaining iterations. -/
def deleteWorkerLoop (job : DeleteObjectInput) (verbose : Bool) (ok : Nat → Bool) :
    Nat → Nat → WorkerResult
  | _, 0 => { attempts := 0, warns := 0, infos := 0, panicked := false }
  | i, fuel + 1 =>
    if verbose && logDerefNil job then
      { attempts := 1, warns := 0, infos := 0, panicked := true }
    else
      let infos : Nat := if verbose then 1 else 0
      if ok i then
        let r := deleteWorkerLoop job verbose ok (i + 1) fuel
        { attempts := r.attempts + 1, warns := r.warns, infos := r.infos + infos,
          panicked := r.panicked }
      else if logDerefNil job then
        { attempts := 1, warns := 0, infos := infos, panicked := true }
      else
        let r := deleteWorkerLoop job verbose ok (i + 1) fuel
        { attempts := r.attempts + 1, warns := r.warns + 1, infos := r.infos + infos,
          panicked := r.panicked }

/-- deleteWorker (main.go lines 67-98) processing one job taken from the
channel: the fixed for i := 0; i < 4; i++ loop. -/
def deleteWorker (verbose : Bool) (ok : Nat → Bool) (job : DeleteObjectInput) :
    WorkerResult :=
  deleteWorkerLoop job verbose ok 0 4

/-- The DeleteObjectInput built for one delete-marker entry (main.go lines
133-137). -/
def markerJob (bucketName : String) (m : DeleteMarkerEntry) : DeleteObjectInput :=
  { key := m.key, versionId := m.versionId, bucket := some bucketName }

/-- The DeleteObjectInput built for one object-version entry (main.go lines
151-155). -/
def versionJob (bucketName : String) (v : ObjectVersion) : DeleteObjectInput :=
  { key := v.key, versionId := v.versionId, bucket := some bucketName }

/-- The DeleteObjectInput built for one plain-object entry (main.go lines
169-172); note that no VersionId is set, so the field stays nil. -/
def objectJob (bucketName : String) (o : S3Object) : DeleteObjectInput :=
  { key := o.key, versionId := none, bucket := some bucketName }

/-- deleteMarkers (main.go lines 128-144): the delete inputs of the
goroutines spawned for one page of delete markers, one goroutine per entry,
all spawned before the WaitGroup is waited on. -/
def deleteMarkers (bucketName : String) (ms : List DeleteMarkerEntry) :
    List DeleteObjectInput :=
  ms.map (markerJob bucketName)

/-- deleteVersions (main.go lines 146-162): the delete inputs of the
goroutines spawned for one page of object versions. -/
def deleteVersions (bucketName : String) (vs : List ObjectVersion) :
    List DeleteObjectInput :=
  vs.map (versionJob bucketName)

/-- deleteObjects (main.go lines 164-179): the delete inputs of the
goroutines spawned for one page of plain objects. -/
def deleteObjects (bucketName : String) (os : List S3Object) :
    List DeleteObjectInput :=
  os.map (objectJob bucketName)

/-- The three job phases of the pipeline. -/
inductive Phase
  | marker
  | version
  | object
deriving DecidableEq, Repr

/-- Externally visible events of one run: a job spawned into a phase of a
page, one delete call issued for a job, the WaitGroup of a phase of a page
returning (barrier), and the final bucket delete call. -/
inductive Event
  | submit (ph : Phase) (page : Nat) (job : DeleteObjectInput)
  | deleteCall (ph : Phase) (page : Nat) (job : DeleteObjectInput)
  | drain (ph : Phase) (page : Nat)
  | deleteBucketCall (bucketName : String)
deriving DecidableEq, Repr

/-- Events of one job inside a phase: its spawn followed by its delete
calls. -/
def jobEvents (ph : Phase) (page : Nat) (job : DeleteObjectInput) (attempts : Nat) :
    List Event :=
  Event.submit ph page job :: List.replicate attempts (Event.deleteCall ph page job)

/-- One spawn-then-wait round (a deleteMarkers or deleteVersions or
deleteObjects call followed by .Wait() on its WaitGroup): every job is
spawned, executed by deleteS3Object, and the barrier event is emitted once
all executors returned.  A panicked executor kills the process, so the trace
stops there and the Boolean records the crash. -/
def runJobs (verbose : Bool) (ok : DeleteObjectInput → Nat → Bool) (budget : Nat)
    (ph : Phase) (page : Nat) : List DeleteObjectInput → List Event × Bool
  | [] => ([Event.drain ph page], false)
  | j :: rest =>
    let r := deleteS3Object verbose (ok j) budget j
    if r.outcome = JobOutcome.panicked then
      (jobEvents ph page j r.attempts, true)
    else
      let t := runJobs verbose ok budget ph page rest
      (jobEvents ph page j r.attempts ++ t.1, t.2)

/-- The per-page callback loop of ListObjectVersionsPages (main.go lines
183-192): for each page, deleteMarkers(...).Wait() then
deleteVersions(...).Wait(); the callback returns !lastPage, so every page is
visited in order. -/
def runVersPages (verbose : Bool) (ok : DeleteObjectInput → Nat → Bool) (budget : Nat)
    (bucketName : String) : Nat → List ListObjectVersionsOutput → List Event × Bool
  | _, [] => ([], false)
  | page, pg :: rest =>
    let t1 := runJobs verbose ok budget Phase.marker page
      (deleteMarkers bucketName pg.deleteMarkers)
    if t1.2 then (t1.1, true)
    else
      let t2 := runJobs verbose ok budget Phase.version page
        (deleteVersions bucketName pg.versions)
      if t2.2 then (t1.1 ++ t2.1, true)
      else
        let t3 := runVersPages verbose ok budget bucketName (page + 1) rest
        (t1.1 ++ t2.1 ++ t3.1, t3.2)

/-- The per-page callback loop of ListObjectsV2Pages (main.go lines
200-204): for each page, deleteObjects(...).Wait(); the callback returns
true, so every page is visited in order. -/
def runObjPages (verbose : Bool) (ok : DeleteObjectInput → Nat → Bool) (budget : Nat)
    (bucketName : String) : Nat → List ListObjectsV2Output → List Event × Bool
  | _, [] => ([], false)
  | page, pg :: rest =>
    let t1 := runJobs verbose ok budget Phase.object page
      (deleteObjects bucketName pg.contents)
    if t1.2 then (t1.1, true)
    else
      let t2 := runObjPages verbose ok budget bucketName (page + 1) rest
      (t1.1 ++ t2.1, t2.2)

/-- How one run of the process ends: normal exit 0, exit 1 from the listing
error check of deleteAllVersions (main.go line 194), exit 1 from the bucket
delete error check (main.go line 217), or a Go panic from a nil pointer
dereference in an executor goroutine. -/
inductive RunStatus
  | ok
  | fatalVers
  | fatalBucket
  | panicked
deriving DecidableEq, Repr

/-- The process exit code of each run status (a Go panic exits with 2). -/
def exitCode : RunStatus → Nat
  | RunStatus.ok => 0
  | RunStatus.fatalVers => 1
  | RunStatus.fatalBucket => 1
  | RunStatus.panicked => 2

/-- One behavior of the storage backend together with the configuration of
the run: the pages the two listings yield, whether each listing call ends in
an error after its pages (versErr and objErr), which delete calls succeed
(deleteOk, per input and attempt number), how many attempts the backoff
policy permits (budget), whether the final bucket delete succeeds, and the
verbosity flag. -/
structure Behavior where
  bucket : String
  versPages : List ListObjectVersionsOutput
  versErr : Bool
  objPages : List ListObjectsV2Output
  objErr : Bool
  deleteOk : DeleteObjectInput → Nat → Bool
  budget : Nat
  deleteBucketOk : Bool
  verbose : Bool

/-- The whole run: deleteAllVersions (main.go lines 181-206) followed by
deleteBucket (main.go lines 208-221), as called from main (lines 53-54).
The error of ListObjectVersionsPages is checked (line 193) and fatal; the
error of ListObjectsV2Pages is assigned (line 200) but never checked, so
objErr is ignored, exactly as in the source.  deleteBucket issues its call
once and exits 1 on failure. -/
def run (b : Behavior) : List Event × RunStatus :=
  let t1 := runVersPages b.verbose b.deleteOk b.budget b.bucket 0 b.versPages
  if t1.2 then (t1.1, RunStatus.panicked)
  else if b.versErr then (t1.1, RunStatus.fatalVers)
  else
    let t2 := runObjPages b.verbose b.deleteOk b.budget b.bucket 0 b.objPages
    if t2.2 then (t1.1 ++ t2.1, RunStatus.panicked)
    else if b.deleteBucketOk then
      (t1.1 ++ t2.1 ++ [Event.deleteBucketCall b.bucket], RunStatus.ok)
    else
      (t1.1 ++ t2.1 ++ [Event.deleteBucketCall b.bucket], RunStatus.fatalBucket)

/-- The phase an event belongs to (none for the bucket delete call). -/
def eventPhase : Event → Option Phase
  | Event.submit ph _ _ => some ph
  | Event.deleteCall ph _ _ => some ph
  | Event.drain ph _ => some ph
  | Event.deleteBucketCall _ => none

/-- The page an event belongs to (none for the bucket delete call). -/
def eventPage : Event → Option Nat
  | Event.submit _ p _ => some p
  | Event.deleteCall _ p _ => some p
  | Event.drain _ p => some p
  | Event.deleteBucketCall _ => none

/-- Whether an event belongs to the marker phase of page p. -/
def isMarkerEvent (p : Nat) : Event → Bool
  | Event.submit Phase.marker q _ => q == p
  | Event.deleteCall Phase.marker q _ => q == p
  | Event.drain Phase.marker q => q == p
  | _ => false

/-- Whether an event belongs to the versions-and-markers pass. -/
def isVersPassEvent : Event → Bool
  | Event.submit Phase.marker _ _ => true
  | Event.deleteCall Phase.marker _ _ => true
  | Event.drain Phase.marker _ => true
  | Event.submit Phase.version _ _ => true
  | Event.deleteCall Phase.version _ _ => true
  | Event.drain Phase.version _ => true
  | _ => false

/-- Whether an event belongs to the plain-objects pass. -/
def isObjPassEvent : Event → Bool
  | Event.submit Phase.object _ _ => true
  | Event.deleteCall Phase.object _ _ => true
  | Event.drain Phase.object _ => true
  | _ => false

/-- Whether an event is the bucket delete call. -/
def isBucketCall : Event → Bool
  | Event.deleteBucketCall _ => true
  | _ => false

/-- Whether an event is a delete call of any phase. -/
def isDeleteCallEvent : Event → Bool
  | Event.deleteCall _ _ _ => true
  | _ => false

/-- Whether an event is a delete call of the versions-and-markers pass. -/
def isVersPassCall : Event → Bool
  | Event.deleteCall Phase.marker _ _ => true
  | Event.deleteCall Phase.version _ _ => true
  | _ => false

/-- Position of a phase of a page in the global order of the pipeline, with V
the number of pages of the versions listing: the marker and version phases of
page p come at 2p and 2p+1, the object phase of page p after every version
page. -/
def blockRank (V : Nat) : Phase → Nat → Nat
  | Phase.marker, p => 2 * p
  | Phase.version, p => 2 * p + 1
  | Phase.object, p => 2 * V + p

/-- Position of an event in the global order of the pipeline, with V the
number of version-listing pages and O the number of object-listing pages. -/
def phaseRank (V O : Nat) : Event → Nat
  | Event.submit ph p _ => blockRank V ph p
  | Event.deleteCall ph p _ => blockRank V ph p
  | Event.drain ph p => blockRank V ph p
  | Event.deleteBucketCall _ => 2 * V + O

/-- The versions-and-markers pass of a run. -/
def versTrace (b : Behavior) : List Event :=
  (runVersPages b.verbose b.deleteOk b.budget b.bucket 0 b.versPages).1

/-- The plain-objects pass of a run. -/
def objTrace (b : Behavior) : List Event :=
  (runObjPages b.verbose b.deleteOk b.budget b.bucket 0 b.objPages).1

/-- Whether a phase belongs to the versions-and-markers pass. -/
def isVersPhase : Phase → Bool
  | Phase.marker => true
  | Phase.version => true
  | Phase.object => false

/-- The delete inputs of the jobs spawned during the versions-and-markers
pass of a trace, in submission order. -/
def versPassSubmits (t : List Event) : List DeleteObjectInput :=
  t.filterMap fun e =>
    match e with
    | Event.submit ph _ j => if isVersPhase ph then some j else none
    | _ => none

/-- All delete inputs spawned for one page of the versions listing: its
markers first (deleteMarkers runs and drains first), then its versions. -/
def pageJobs (bk : String) (pg : ListObjectVersionsOutput) : List DeleteObjectInput :=
  deleteMarkers bk pg.deleteMarkers ++ deleteVersions bk pg.versions

/-- All delete inputs spawned across the versions listing, page by page. -/
def allVersJobs (bk : String) (pages : List ListObjectVersionsOutput) :
    List DeleteObjectInput :=
  (pages.map (pageJobs bk)).flatten

/-- The (key, versionId) pair of a delete input. -/
def jobPair (j : DeleteObjectInput) : Option String × Option String :=
  (j.key, j.versionId)

/-- The (key, versionId) pairs of the entries of one versions-listing page,
markers first. -/
def entryPairs (pg : ListObjectVersionsOutput) : List (Option String × Option String) :=
  pg.deleteMarkers.map (fun m => (m.key, m.versionId)) ++
    pg.versions.map (fun v => (v.key, v.versionId))

/-- The (key, versionId) pairs of all entries of the versions listing. -/
def allEntryPairs (pages : List ListObjectVersionsOutput) :
    List (Option String × Option String) :=
  (pages.map entryPairs).flatten

/-- A versions listing is well formed when the backend populates the Key and
VersionId pointer of every entry, which the real service always does. -/
def wfVersPages (pages : List ListObjectVersionsOutput) : Prop :=
  ∀ pg ∈ pages,
    (∀ m ∈ pg.deleteMarkers, m.key.isSome = true ∧ m.versionId.isSome = true) ∧
    (∀ v ∈ pg.versions, v.key.isSome = true ∧ v.versionId.isSome = true)

/-- A sample delete-marker entry. -/
def sampleMarker : DeleteMarkerEntry :=
  { key := some "k", versionId := some "m1" }

/-- A sample object-version entry. -/
def sampleVersion : ObjectVersion :=
  { key := some "k", versionId := some "v1" }

/-- A sample plain-object entry. -/
def sampleObject : S3Object :=
  { key := some "k" }

/-- A fully populated delete input, as the marker and version phases build
them. -/
def jobA : DeleteObjectInput :=
  { key := some "k", versionId := some "v", bucket := some "b" }

/-- One versions-listing page holding the sample marker and the sample
version. -/
def samplePage : ListObjectVersionsOutput :=
  { deleteMarkers := [sampleMarker], versions := [sampleVersion] }

/-- One empty versions-listing page. -/
def emptyVersPage : ListObjectVersionsOutput :=
  { deleteMarkers := [], versions := [] }

/-- One objects-listing page holding the sample object. -/
def sampleObjPage : ListObjectsV2Output :=
  { contents := [sampleObject] }

/-- One empty objects-listing page. -/
def emptyObjPage : ListObjectsV2Output :=
  { contents := [] }

/-- A small happy-path behavior: one versions page with one marker and one
version, one objects page with one object, every call succeeds. -/
def bA : Behavior :=
  { bucket := "t", versPages := [samplePage], versErr := false,
    objPages := [sampleObjPage], objErr := false,
    deleteOk := fun _ _ => true, budget := 1, deleteBucketOk := true,
    verbose := false }

/-- A behavior of an already empty bucket: both listings yield one page with
zero entries and succeed, and the bucket delete succeeds. -/
def bEmpty : Behavior :=
  { bucket := "t", versPages := [emptyVersPage],
    versErr := false, objPages := [emptyObjPage], objErr := false,
    deleteOk := fun _ _ => true, budget := 1, deleteBucketOk := true,
    verbose := false }

/-- The behavior of bEmpty except that the plain-objects listing call ends in
an error. -/
def bObjErr : Behavior :=
  { bucket := "t", versPages := [emptyVersPage],
    versErr := false, objPages := [emptyObjPage], objErr := true,
    deleteOk := fun _ _ => true, budget := 1, deleteBucketOk := true,
    verbose := false }

/-- The behavior of bEmpty except that the versions-and-markers listing call
ends in an error. -/
def bVersErr : Behavior :=
  { bucket := "t", versPages := [emptyVersPage],
    versErr := true, objPages := [emptyObjPage], objErr := false,
    deleteOk := fun _ _ => true, budget := 1, deleteBucketOk := true,
    verbose := false }

/-- The behavior of bEmpty except that the final bucket delete call fails. -/
def bBucketFail : Behavior :=
  { bucket := "t", versPages := [emptyVersPage],
    versErr := false, objPages := [emptyObjPage], objErr := false,
    deleteOk := fun _ _ => true, budget := 1, deleteBucketOk := false,
    verbose := false }

theorem mem_jobEvents {ph : Phase} {p : Nat} {job : DeleteObjectInput} {n : Nat} {e : Event}
    (h : e ∈ jobEvents ph p job n) :
    e = Event.submit ph p job ∨ e = Event.deleteCall ph p job := by
  rcases List.mem_cons.mp h with h1 | h2
  · exact Or.inl h1
  · exact Or.inr (List.eq_of_mem_replicate h2)

theorem mem_runJobs {vb : Bool} {ok : DeleteObjectInput → Nat → Bool} {bd : Nat}
    {ph : Phase} {p : Nat} :
    ∀ {jobs : List DeleteObjectInput} {e : Event}, e ∈ (runJobs vb ok bd ph p jobs).1 →
      (∃ j, e = Event.submit ph p j) ∨ (∃ j, e = Event.deleteCall ph p j) ∨
        e = Event.drain ph p := by
  intro jobs
  induction jobs with
  | nil =>
    intro e he
    simp only [runJobs, List.mem_singleton] at he
    exact Or.inr (Or.inr he)
  | cons j rest ih =>
    intro e he
    simp only [runJobs] at he
    split at he
    · rcases mem_jobEvents he with h | h
      · exact Or.inl ⟨j, h⟩
      · exact Or.inr (Or.inl ⟨j, h⟩)
    · rcases List.mem_append.mp he with h | h
      · rcases mem_jobEvents h with h1 | h1
        · exact Or.inl ⟨j, h1⟩
        · exact Or.inr (Or.inl ⟨j, h1⟩)
      · exact ih h

theorem eventPhase_of_mem_runJobs {vb : Bool} {ok : DeleteObjectInput → Nat → Bool}
    {bd : Nat} {ph : Phase} {p : Nat} {jobs : List DeleteObjectInput} {e : Event}
    (he : e ∈ (runJobs vb ok bd ph p jobs).1) :
    eventPhase e = some ph ∧ eventPage e = some p := by
  rcases mem_runJobs he with ⟨j, rfl⟩ | ⟨j, rfl⟩ | rfl <;> exact ⟨rfl, rfl⟩

theorem rank_of_mem_runJobs (V O : Nat) {vb : Bool} {ok : DeleteObjectInput → Nat → Bool}
    {bd : Nat} {ph : Phase} {p : Nat} {jobs : List DeleteObjectInput} {e : Event}
    (he : e ∈ (runJobs vb ok bd ph p jobs).1) :
    phaseRank V O e = blockRank V ph p := by
  rcases mem_runJobs he with ⟨j, rfl⟩ | ⟨j, rfl⟩ | rfl <;> rfl

theorem runJobs_drain_mem {vb : Bool} {ok : DeleteObjectInput → Nat → Bool} {bd : Nat}
    {ph : Phase} {p : Nat} :
    ∀ {jobs : List DeleteObjectInput}, (runJobs vb ok bd ph p jobs).2 = false →
      Event.drain ph p ∈ (runJobs vb ok bd ph p jobs).1 := by
  intro jobs
  induction jobs with
  | nil => intro _; simp [runJobs]
  | cons j rest ih =>
    intro h
    simp only [runJobs] at h ⊢
    split at h
    · simp at h
    · rename_i hcond
      simp only [hcond, if_false]
      exact List.mem_append.mpr (Or.inr (ih h))

theorem pairwise_le_of_forall_eq {f : Event → Nat} {c : Nat} :
    ∀ {l : List Event}, (∀ e ∈ l, f e = c) →
      l.Pairwise (fun a b => f a ≤ f b) := by
  intro l
  induction l with
  | nil => intro _; exact List.Pairwise.nil
  | cons a l ih =>
    intro h
    refine List.Pairwise.cons ?_ (ih fun e he => h e (List.mem_cons_of_mem a he))
    intro b hb
    rw [h a (List.mem_cons_self a l), h b (List.mem_cons_of_mem a hb)]

theorem runVersPages_rank (V O : Nat) (vb : Bool) (ok : DeleteObjectInput → Nat → Bool)
    (bd : Nat) (bk : String) :
    ∀ (l : List ListObjectVersionsOutput) (q : Nat),
      (∀ e ∈ (runVersPages vb ok bd bk q l).1,
          2 * q ≤ phaseRank V O e ∧ phaseRank V O e < 2 * (q + l.length)) ∧
      (runVersPages vb ok bd bk q l).1.Pairwise
        (fun a b => phaseRank V O a ≤ phaseRank V O b) := by
  intro l
  induction l with
  | nil =>
    intro q
    refine ⟨?_, ?_⟩
    · intro e he; simp [runVersPages] at he
    · simp [runVersPages]
  | cons pg rest ih =>
    intro q
    have hm : ∀ e ∈ (runJobs vb ok bd Phase.marker q (deleteMarkers bk pg.deleteMarkers)).1,
        phaseRank V O e = 2 * q := by
      intro e he
      exact rank_of_mem_runJobs V O he
    have hv : ∀ e ∈ (runJobs vb ok bd Phase.version q (deleteVersions bk pg.versions)).1,
        phaseRank V O e = 2 * q + 1 := by
      intro e he
      exact rank_of_mem_runJobs V O he
    have hrest := ih (q + 1)
    simp only [runVersPages]
    split
    · constructor
      · intro e he
        rw [hm e he]
        simp only [List.length_cons]
        omega
      · exact pairwise_le_of_forall_eq hm
    · split
      · constructor
        · intro e he
          rcases List.mem_append.mp he with h | h
          · rw [hm e h]; simp only [List.length_cons]; omega
          · rw [hv e h]; simp only [List.length_cons]; omega
        · refine List.pairwise_append.mpr ⟨pairwise_le_of_forall_eq hm,
            pairwise_le_of_forall_eq hv, ?_⟩
          intro a ha e he
          rw [hm a ha, hv e he]
          omega
      · constructor
        · intro e he
          rw [List.append_assoc] at he
          rcases List.mem_append.mp he with h | h
          · rw [hm e h]; simp only [List.length_cons]; omega
          · rcases List.mem_append.mp h with h1 | h1
            · rw [hv e h1]; simp only [List.length_cons]; omega
            · rcases (hrest.1 e h1) with ⟨hlo, hhi⟩
              simp only [List.length_cons]
              omega
        · rw [List.append_assoc]
          refine List.pairwise_append.mpr ⟨pairwise_le_of_forall_eq hm, ?_, ?_⟩
          · refine List.pairwise_append.mpr ⟨pairwise_le_of_forall_eq hv, hrest.2, ?_⟩
            intro a ha e he
            rw [hv a ha]
            rcases (hrest.1 e he) with ⟨hlo, _⟩
            omega
          · intro a ha e he
            rw [hm a ha]
            rcases List.mem_append.mp he with h | h
            · rw [hv e h]; omega
            · rcases (hrest.1 e h) with ⟨hlo, _⟩; omega

theorem runObjPages_rank (V O : Nat) (vb : Bool) (ok : DeleteObjectInput → Nat → Bool)
    (bd : Nat) (bk : String) :
    ∀ (l : List ListObjectsV2Output) (q : Nat),
      (∀ e ∈ (runObjPages vb ok bd bk q l).1,
          2 * V + q ≤ phaseRank V O e ∧ phaseRank V O e < 2 * V + (q + l.length)) ∧
      (runObjPages vb ok bd bk q l).1.Pairwise
        (fun a b => phaseRank V O a ≤ phaseRank V O b) := by
  intro l
  induction l with
  | nil =>
    intro q
    refine ⟨?_, ?_⟩
    · intro e he; simp [runObjPages] at he
    · simp [runObjPages]
  | cons pg rest ih =>
    intro q
    have ho : ∀ e ∈ (runJobs vb ok bd Phase.object q (deleteObjects bk pg.contents)).1,
        phaseRank V O e = 2 * V + q := by
      intro e he
      exact rank_of_mem_runJobs V O he
    have hrest := ih (q + 1)
    simp only [runObjPages]
    split
    · constructor
      · intro e he
        rw [ho e he]
        simp only [List.length_cons]
        omega
      · exact pairwise_le_of_forall_eq ho
    · constructor
      · intro e he
        rcases List.mem_append.mp he with h | h
        · rw [ho e h]; simp only [List.length_cons]; omega
        · rcases (hrest.1 e h) with ⟨hlo, hhi⟩
          simp only [List.length_cons]
          omega
      · refine List.pairwise_append.mpr ⟨pairwise_le_of_forall_eq ho, hrest.2, ?_⟩
        intro a ha e he
        rw [ho a ha]
        rcases (hrest.1 e he) with ⟨hlo, _⟩
        omega

theorem eventPhase_of_mem_runVersPages {vb : Bool} {ok : DeleteObjectInput → Nat → Bool}
    {bd : Nat} {bk : String} :
    ∀ {l : List ListObjectVersionsOutput} {q : Nat} {e : Event},
      e ∈ (runVersPages vb ok bd bk q l).1 →
      eventPhase e = some Phase.marker ∨ eventPhase e = some Phase.version := by
  intro l
  induction l with
  | nil => intro q e he; simp [runVersPages] at he
  | cons pg rest ih =>
    intro q e he
    simp only [runVersPages] at he
    split at he
    · exact Or.inl (eventPhase_of_mem_runJobs he).1
    · split at he
      · rcases List.mem_append.mp he with h | h
        · exact Or.inl (eventPhase_of_mem_runJobs h).1
        · exact Or.inr (eventPhase_of_mem_runJobs h).1
      · rw [List.append_assoc] at he
        rcases List.mem_append.mp he with h | h
        · exact Or.inl (eventPhase_of_mem_runJobs h).1
        · rcases List.mem_append.mp h with h1 | h1
          · exact Or.inr (eventPhase_of_mem_runJobs h1).1
          · exact ih h1

theorem eventPhase_of_mem_runObjPages {vb : Bool} {ok : DeleteObjectInput → Nat → Bool}
    {bd : Nat} {bk : String} :
    ∀ {l : List ListObjectsV2Output} {q : Nat} {e : Event},
      e ∈ (runObjPages vb ok bd bk q l).1 → eventPhase e = some Phase.object := by
  intro l
  induction l with
  | nil => intro q e he; simp [runObjPages] at he
  | cons pg rest ih =>
    intro q e he
    simp only [runObjPages] at he
    split at he
    · exact (eventPhase_of_mem_runJobs he).1
    · rcases List.mem_append.mp he with h | h
      · exact (eventPhase_of_mem_runJobs h).1
      · exact ih h

theorem run_of_versPanic {b : Behavior}
    (h1 : (runVersPages b.verbose b.deleteOk b.budget b.bucket 0 b.versPages).2 = true) :
    run b = (versTrace b, RunStatus.panicked) := by
  simp [run, versTrace, h1]

theorem run_of_versErr {b : Behavior}
    (h1 : (runVersPages b.verbose b.deleteOk b.budget b.bucket 0 b.versPages).2 = false)
    (h2 : b.versErr = true) :
    run b = (versTrace b, RunStatus.fatalVers) := by
  simp [run, versTrace, h1, h2]

theorem run_of_objPanic {b : Behavior}
    (h1 : (runVersPages b.verbose b.deleteOk b.budget b.bucket 0 b.versPages).2 = false)
    (h2 : b.versErr = false)
    (h3 : (runObjPages b.verbose b.deleteOk b.budget b.bucket 0 b.objPages).2 = true) :
    run b = (versTrace b ++ objTrace b, RunStatus.panicked) := by
  simp [run, versTrace, objTrace, h1, h2, h3]

theorem run_of_finalize {b : Behavior}
    (h1 : (runVersPages b.verbose b.deleteOk b.budget b.bucket 0 b.versPages).2 = false)
    (h2 : b.versErr = false)
    (h3 : (runObjPages b.verbose b.deleteOk b.budget b.bucket 0 b.objPages).2 = false) :
    run b = (versTrace b ++ objTrace b ++ [Event.deleteBucketCall b.bucket],
      if b.deleteBucketOk then RunStatus.ok else RunStatus.fatalBucket) := by
  by_cases h4 : b.deleteBucketOk <;> simp [run, versTrace, objTrace, h1, h2, h3, h4]

theorem run_cases (b : Behavior) :
    ((run b).1 = versTrace b ∧
      ((run b).2 = RunStatus.panicked ∨ (run b).2 = RunStatus.fatalVers)) ∨
    ((run b).1 = versTrace b ++ objTrace b ∧ (run b).2 = RunStatus.panicked) ∨
    ((run b).1 = versTrace b ++ objTrace b ++ [Event.deleteBucketCall b.bucket] ∧
      ((run b).2 = RunStatus.ok ∨ (run b).2 = RunStatus.fatalBucket)) := by
  by_cases h1 : (runVersPages b.verbose b.deleteOk b.budget b.bucket 0 b.versPages).2 = true
  · exact Or.inl ⟨by rw [run_of_versPanic h1], by rw [run_of_versPanic h1]; exact Or.inl rfl⟩
  · have h1f : (runVersPages b.verbose b.deleteOk b.budget b.bucket 0 b.versPages).2 = false := by
      simpa using h1
    by_cases h2 : b.versErr = true
    · exact Or.inl ⟨by rw [run_of_versErr h1f h2],
        by rw [run_of_versErr h1f h2]; exact Or.inr rfl⟩
    · have h2f : b.versErr = false := by simpa using h2
      by_cases h3 : (runObjPages b.verbose b.deleteOk b.budget b.bucket 0 b.objPages).2 = true
      · exact Or.inr (Or.inl ⟨by rw [run_of_objPanic h1f h2f h3],
          by rw [run_of_objPanic h1f h2f h3]⟩)
      · have h3f : (runObjPages b.verbose b.deleteOk b.budget b.bucket 0 b.objPages).2 = false := by
          simpa using h3
        refine Or.inr (Or.inr ⟨by rw [run_of_finalize h1f h2f h3f], ?_⟩)
        rw [run_of_finalize h1f h2f h3f]
        by_cases h4 : b.deleteBucketOk <;> simp [h4]

theorem phaseRank_bucket (V O : Nat) (s : String) :
    phaseRank V O (Event.deleteBucketCall s) = 2 * V + O := rfl

theorem run_rank_sorted (b : Behavior) :
    (run b).1.Pairwise (fun e f =>
      phaseRank b.versPages.length b.objPages.length e ≤
        phaseRank b.versPages.length b.objPages.length f) := by
  have hvers := runVersPages_rank b.versPages.length b.objPages.length b.verbose b.deleteOk
    b.budget b.bucket b.versPages 0
  have hobj := runObjPages_rank b.versPages.length b.objPages.length b.verbose b.deleteOk
    b.budget b.bucket b.objPages 0
  rcases run_cases b with ⟨ht, _⟩ | ⟨ht, _⟩ | ⟨ht, _⟩ <;> rw [ht]
  · exact hvers.2
  · refine List.pairwise_append.mpr ⟨hvers.2, hobj.2, ?_⟩
    intro a ha e he
    have h1 := (hvers.1 a ha).2
    have h2 := (hobj.1 e he).1
    omega
  · rw [List.append_assoc]
    refine List.pairwise_append.mpr ⟨hvers.2, ?_, ?_⟩
    · refine List.pairwise_append.mpr ⟨hobj.2, by simp, ?_⟩
      intro a ha e he
      simp only [List.mem_singleton] at he
      subst he
      have h2 := (hobj.1 a ha).2
      rw [phaseRank_bucket]
      omega
    · intro a ha e he
      have h1 := (hvers.1 a ha).2
      rcases List.mem_append.mp he with h | h
      · have h2 := (hobj.1 e h).1
        omega
      · simp only [List.mem_singleton] at h
        subst h
        rw [phaseRank_bucket]
        omega

theorem mem_run {b : Behavior} {e : Event} (he : e ∈ (run b).1) :
    e ∈ versTrace b ∨ e ∈ objTrace b ∨ e = Event.deleteBucketCall b.bucket := by
  rcases run_cases b with ⟨ht, _⟩ | ⟨ht, _⟩ | ⟨ht, _⟩ <;> rw [ht] at he
  · exact Or.inl he
  · rcases List.mem_append.mp he with h | h
    · exact Or.inl h
    · exact Or.inr (Or.inl h)
  · rw [List.append_assoc] at he
    rcases List.mem_append.mp he with h | h
    · exact Or.inl h
    · rcases List.mem_append.mp h with h1 | h1
      · exact Or.inr (Or.inl h1)
      · simp only [List.mem_singleton] at h1
        exact Or.inr (Or.inr h1)

theorem get_lt_of_rank_lt {f : Event → Nat} {t : List Event}
    (hs : t.Pairwise fun a b => f a ≤ f b) {i j : Nat} (hi : i < t.length)
    (hj : j < t.length) (h : f (t.get ⟨i, hi⟩) < f (t.get ⟨j, hj⟩)) : i < j := by
  by_contra hij
  push_neg at hij
  rcases Nat.lt_or_ge j i with hlt | hge
  · have := List.pairwise_iff_get.mp hs ⟨j, hj⟩ ⟨i, hi⟩ (Fin.mk_lt_mk.mpr hlt)
    omega
  · have heq : i = j := Nat.le_antisymm hge hij
    subst heq
    exact absurd h (lt_irrefl _)

theorem rank_of_isMarkerEvent {V O p : Nat} {e : Event} (h : isMarkerEvent p e = true) :
    phaseRank V O e = 2 * p := by
  cases e with
  | submit ph q j =>
    cases ph
    · simp only [isMarkerEvent, beq_iff_eq] at h
      subst h
      rfl
    · simp [isMarkerEvent] at h
    · simp [isMarkerEvent] at h
  | deleteCall ph q j =>
    cases ph
    · simp only [isMarkerEvent, beq_iff_eq] at h
      subst h
      rfl
    · simp [isMarkerEvent] at h
    · simp [isMarkerEvent] at h
  | drain ph q =>
    cases ph
    · simp only [isMarkerEvent, beq_iff_eq] at h
      subst h
      rfl
    · simp [isMarkerEvent] at h
    · simp [isMarkerEvent] at h
  | deleteBucketCall s => simp [isMarkerEvent] at h

theorem isVersPassEvent_phase {e : Event} (h : isVersPassEvent e = true) :
    eventPhase e = some Phase.marker ∨ eventPhase e = some Phase.version := by
  cases e with
  | submit ph q j => cases ph <;> simp_all [isVersPassEvent, eventPhase]
  | deleteCall ph q j => cases ph <;> simp_all [isVersPassEvent, eventPhase]
  | drain ph q => cases ph <;> simp_all [isVersPassEvent, eventPhase]
  | deleteBucketCall s => simp [isVersPassEvent] at h

theorem isObjPassEvent_phase {e : Event} (h : isObjPassEvent e = true) :
    eventPhase e = some Phase.object := by
  cases e with
  | submit ph q j => cases ph <;> simp_all [isObjPassEvent, eventPhase]
  | deleteCall ph q j => cases ph <;> simp_all [isObjPassEvent, eventPhase]
  | drain ph q => cases ph <;> simp_all [isObjPassEvent, eventPhase]
  | deleteBucketCall s => simp [isObjPassEvent] at h

theorem isBucketCall_shape {e : Event} (h : isBucketCall e = true) :
    ∃ s, e = Event.deleteBucketCall s := by
  cases e with
  | submit ph q j => simp [isBucketCall] at h
  | deleteCall ph q j => simp [isBucketCall] at h
  | drain ph q => simp [isBucketCall] at h
  | deleteBucketCall s => exact ⟨s, rfl⟩

theorem rank_lt_of_versPass_mem (b : Behavior) {e : Event} (he : e ∈ (run b).1)
    (hv : isVersPassEvent e = true) :
    phaseRank b.versPages.length b.objPages.length e < 2 * b.versPages.length := by
  rcases mem_run he with h | h | h
  · have := (runVersPages_rank b.versPages.length b.objPages.length b.verbose b.deleteOk
      b.budget b.bucket b.versPages 0).1 e h
    omega
  · have hop := eventPhase_of_mem_runObjPages h
    rcases isVersPassEvent_phase hv with h1 | h1 <;> rw [hop] at h1 <;> simp at h1
  · subst h
    simp [isVersPassEvent] at hv

theorem rank_of_objPass_mem (b : Behavior) {e : Event} (he : e ∈ (run b).1)
    (ho : isObjPassEvent e = true) :
    2 * b.versPages.length ≤ phaseRank b.versPages.length b.objPages.length e ∧
      phaseRank b.versPages.length b.objPages.length e <
        2 * b.versPages.length + b.objPages.length := by
  rcases mem_run he with h | h | h
  · have hvp := eventPhase_of_mem_runVersPages h
    have h1 := isObjPassEvent_phase ho
    rcases hvp with h2 | h2 <;> rw [h1] at h2 <;> simp at h2
  · have := (runObjPages_rank b.versPages.length b.objPages.length b.verbose b.deleteOk
      b.budget b.bucket b.objPages 0).1 e h
    omega
  · subst h
    simp [isObjPassEvent] at ho

theorem bucket_countP_zero_of_phase {t : List Event}
    (h : ∀ e ∈ t, eventPhase e = some Phase.marker ∨ eventPhase e = some Phase.version ∨
      eventPhase e = some Phase.object) :
    t.countP isBucketCall = 0 := by
  rw [List.countP_eq_zero]
  intro e he hcall
  rcases isBucketCall_shape hcall with ⟨s, rfl⟩
  rcases h _ he with h1 | h1 | h1 <;> simp [eventPhase] at h1

theorem versTrace_bucket_countP (b : Behavior) : (versTrace b).countP isBucketCall = 0 := by
  refine bucket_countP_zero_of_phase ?_
  intro e he
  rcases eventPhase_of_mem_runVersPages he with h | h
  · exact Or.inl h
  · exact Or.inr (Or.inl h)

theorem objTrace_bucket_countP (b : Behavior) : (objTrace b).countP isBucketCall = 0 := by
  refine bucket_countP_zero_of_phase ?_
  intro e he
  exact Or.inr (Or.inr (eventPhase_of_mem_runObjPages he))

theorem versSubmit_drain_runVersPages {vb : Bool} {ok : DeleteObjectInput → Nat → Bool}
    {bd : Nat} {bk : String} :
    ∀ {l : List ListObjectVersionsOutput} {q p : Nat} {job : DeleteObjectInput},
      Event.submit Phase.version p job ∈ (runVersPages vb ok bd bk q l).1 →
      Event.drain Phase.marker p ∈ (runVersPages vb ok bd bk q l).1 := by
  intro l
  induction l with
  | nil => intro q p job he; simp [runVersPages] at he
  | cons pg rest ih =>
    intro q p job he
    by_cases h1 : (runJobs vb ok bd Phase.marker q (deleteMarkers bk pg.deleteMarkers)).2 = true
    · simp only [runVersPages, h1, if_true] at he ⊢
      have := (eventPhase_of_mem_runJobs he).1
      simp [eventPhase] at this
    · have h1f : (runJobs vb ok bd Phase.marker q (deleteMarkers bk pg.deleteMarkers)).2
          = false := by simpa using h1
      by_cases h2 : (runJobs vb ok bd Phase.version q (deleteVersions bk pg.versions)).2 = true
      · simp only [runVersPages, h1f, Bool.false_eq_true, if_false, h2, if_true] at he ⊢
        rcases List.mem_append.mp he with h | h
        · have := (eventPhase_of_mem_runJobs h).1
          simp [eventPhase] at this
        · have hpage := (eventPhase_of_mem_runJobs h).2
          simp only [eventPage, Option.some.injEq] at hpage
          subst hpage
          exact List.mem_append.mpr (Or.inl (runJobs_drain_mem h1f))
      · have h2f : (runJobs vb ok bd Phase.version q (deleteVersions bk pg.versions)).2
            = false := by simpa using h2
        simp only [runVersPages, h1f, h2f, Bool.false_eq_true, if_false] at he ⊢
        rw [List.append_assoc] at he ⊢
        rcases List.mem_append.mp he with h | h
        · have := (eventPhase_of_mem_runJobs h).1
          simp [eventPhase] at this
        · rcases List.mem_append.mp h with h3 | h3
          · have hpage := (eventPhase_of_mem_runJobs h3).2
            simp only [eventPage, Option.some.injEq] at hpage
            subst hpage
            exact List.mem_append.mpr (Or.inl (runJobs_drain_mem h1f))
          · exact List.mem_append.mpr (Or.inr (List.mem_append.mpr (Or.inr (ih h3))))

theorem versSubmit_drain_run (b : Behavior) {p : Nat} {job : DeleteObjectInput}
    (h : Event.submit Phase.version p job ∈ (run b).1) :
    Event.drain Phase.marker p ∈ (run b).1 := by
  have hmem : Event.submit Phase.version p job ∈ versTrace b := by
    rcases mem_run h with h1 | h1 | h1
    · exact h1
    · have := eventPhase_of_mem_runObjPages h1
      simp [eventPhase] at this
    · simp at h1
  have hdrain : Event.drain Phase.marker p ∈ versTrace b :=
    versSubmit_drain_runVersPages hmem
  rcases run_cases b with ⟨ht, _⟩ | ⟨ht, _⟩ | ⟨ht, _⟩ <;> rw [ht]
  · exact hdrain
  · exact List.mem_append.mpr (Or.inl hdrain)
  · rw [List.append_assoc]
    exact List.mem_append.mpr (Or.inl hdrain)

theorem deleteS3ObjectLoop_not_panicked {job : DeleteObjectInput} {vb : Bool}
    {ok : Nat → Bool} (h : logDerefNil job = false) :
    ∀ fuel n, (deleteS3ObjectLoop job vb ok n fuel).outcome ≠ JobOutcome.panicked := by
  intro fuel
  induction fuel with
  | zero => intro n hcon; simp [deleteS3ObjectLoop] at hcon
  | succ fuel ih =>
    intro n
    simp only [deleteS3ObjectLoop, h, Bool.and_false, Bool.false_eq_true, if_false]
    by_cases hok : ok n = true
    · simp [hok]
    · simp only [hok, Bool.false_eq_true, if_false]
      intro hcon
      exact ih (n + 1) hcon

theorem deleteS3Object_attempts_pos {vb : Bool} {ok : Nat → Bool} {budget : Nat}
    {job : DeleteObjectInput} (hb : 1 ≤ budget) :
    1 ≤ (deleteS3Object vb ok budget job).attempts := by
  obtain ⟨fuel, rfl⟩ : ∃ f, budget = f + 1 := ⟨budget - 1, by omega⟩
  show 1 ≤ (deleteS3ObjectLoop job vb ok 1 (fuel + 1)).attempts
  simp only [deleteS3ObjectLoop]
  split
  · simp
  · by_cases hok : ok 1 = true
    · simp [hok]
    · simp only [hok, Bool.false_eq_true, if_false]
      split
      · simp
      · simp

theorem deleteS3ObjectLoop_all_fail {job : DeleteObjectInput} {vb : Bool}
    {ok : Nat → Bool} (h : logDerefNil job = false) (hfail : ∀ n, ok n = false) :
    ∀ fuel n, deleteS3ObjectLoop job vb ok n (fuel + 1) =
      { outcome := JobOutcome.exhausted, attempts := fuel + 1, warns := fuel + 1,
        infos := if vb then fuel + 1 else 0 } := by
  intro fuel
  induction fuel with
  | zero =>
    intro n
    simp [deleteS3ObjectLoop, h, hfail n]
  | succ fuel ih =>
    intro n
    have step : deleteS3ObjectLoop job vb ok n (fuel + 1 + 1) =
        { outcome := (deleteS3ObjectLoop job vb ok (n + 1) (fuel + 1)).outcome,
          attempts := (deleteS3ObjectLoop job vb ok (n + 1) (fuel + 1)).attempts + 1,
          warns := (deleteS3ObjectLoop job vb ok (n + 1) (fuel + 1)).warns + 1,
          infos := (deleteS3ObjectLoop job vb ok (n + 1) (fuel + 1)).infos +
            (if vb then 1 else 0) } := by
      simp [deleteS3ObjectLoop, h, hfail n]
    rw [step, ih (n + 1)]
    cases vb <;> simp

/-- The executor result of a job that fails on every attempt within a budget
of b attempts, for a job whose Key and VersionId are populated: the retry
budget is exhausted, b delete calls were made, and a warning was logged on
every one of the b failed attempts (not once). -/
theorem deleteS3Object_all_fail {vb : Bool} {ok : Nat → Bool} {budget : Nat}
    {job : DeleteObjectInput} (hb : 1 ≤ budget) (h : logDerefNil job = false)
    (hfail : ∀ n, ok n = false) :
    deleteS3Object vb ok budget job =
      { outcome := JobOutcome.exhausted, attempts := budget, warns := budget,
        infos := if vb then budget else 0 } := by
  obtain ⟨fuel, rfl⟩ : ∃ f, budget = f + 1 := ⟨budget - 1, by omega⟩
  exact deleteS3ObjectLoop_all_fail h hfail fuel 1

theorem runJobs_no_panic {vb : Bool} {ok : DeleteObjectInput → Nat → Bool} {bd : Nat}
    {ph : Phase} {p : Nat} :
    ∀ {jobs : List DeleteObjectInput}, (∀ j ∈ jobs, logDerefNil j = false) →
      (runJobs vb ok bd ph p jobs).2 = false := by
  intro jobs
  induction jobs with
  | nil => intro _; simp [runJobs]
  | cons j rest ih =>
    intro h
    have hout : (deleteS3Object vb (ok j) bd j).outcome ≠ JobOutcome.panicked :=
      deleteS3ObjectLoop_not_panicked (h j (List.mem_cons_self j rest)) bd 1
    simp only [runJobs]
    split
    · rename_i hcon
      exact absurd hcon hout
    · exact ih fun x hx => h x (List.mem_cons_of_mem j hx)

theorem countP_jobEvents (pr : Event → Bool) (ph : Phase) (p : Nat)
    (job : DeleteObjectInput) (n : Nat) :
    (jobEvents ph p job n).countP pr =
      (if pr (Event.deleteCall ph p job) then n else 0) +
        (if pr (Event.submit ph p job) then 1 else 0) := by
  simp [jobEvents, List.countP_cons, List.countP_replicate]

theorem runJobs_callCount {vb : Bool} {ok : DeleteObjectInput → Nat → Bool} {bd : Nat}
    {ph : Phase} {p : Nat} (hb : 1 ≤ bd) :
    ∀ {jobs : List DeleteObjectInput}, (∀ j ∈ jobs, logDerefNil j = false) →
      jobs.length ≤ (runJobs vb ok bd ph p jobs).1.countP isDeleteCallEvent := by
  intro jobs
  induction jobs with
  | nil => intro _; simp [runJobs]
  | cons j rest ih =>
    intro h
    have hout : (deleteS3Object vb (ok j) bd j).outcome ≠ JobOutcome.panicked :=
      deleteS3ObjectLoop_not_panicked (h j (List.mem_cons_self j rest)) bd 1
    have hatt : 1 ≤ (deleteS3Object vb (ok j) bd j).attempts :=
      deleteS3Object_attempts_pos hb
    have hrest := ih fun x hx => h x (List.mem_cons_of_mem j hx)
    simp only [runJobs]
    split
    · rename_i hcon
      exact absurd hcon hout
    · rw [List.countP_append, countP_jobEvents]
      simp only [isDeleteCallEvent, if_true, if_false, List.length_cons]
      omega

theorem filterMap_replicate_none {α β : Type} (f : α → Option β) (a : α)
    (hf : f a = none) : ∀ n, (List.replicate n a).filterMap f = [] := by
  intro n
  induction n with
  | zero => rfl
  | succ n ih => simp [List.replicate_succ, List.filterMap_cons, hf, ih]

theorem versPassSubmits_jobEvents (ph : Phase) (p : Nat) (job : DeleteObjectInput)
    (n : Nat) (hph : isVersPhase ph = true) :
    versPassSubmits (jobEvents ph p job n) = [job] := by
  simp only [versPassSubmits, jobEvents, List.filterMap_cons, hph, if_true]
  rw [filterMap_replicate_none _ _ rfl]

theorem versPassSubmits_append (t1 t2 : List Event) :
    versPassSubmits (t1 ++ t2) = versPassSubmits t1 ++ versPassSubmits t2 := by
  simp [versPassSubmits, List.filterMap_append]

theorem versPassSubmits_runJobs {vb : Bool} {ok : DeleteObjectInput → Nat → Bool}
    {bd : Nat} {ph : Phase} {p : Nat} (hph : isVersPhase ph = true) :
    ∀ {jobs : List DeleteObjectInput}, (∀ j ∈ jobs, logDerefNil j = false) →
      versPassSubmits (runJobs vb ok bd ph p jobs).1 = jobs := by
  intro jobs
  induction jobs with
  | nil => intro _; simp [runJobs, versPassSubmits]
  | cons j rest ih =>
    intro h
    have hout : (deleteS3Object vb (ok j) bd j).outcome ≠ JobOutcome.panicked :=
      deleteS3ObjectLoop_not_panicked (h j (List.mem_cons_self j rest)) bd 1
    simp only [runJobs]
    split
    · rename_i hcon
      exact absurd hcon hout
    · rw [versPassSubmits_append, versPassSubmits_jobEvents _ _ _ _ hph,
        ih fun x hx => h x (List.mem_cons_of_mem j hx)]
      rfl

theorem versPassSubmits_nil_of_objPhase {t : List Event}
    (h : ∀ e ∈ t, eventPhase e = some Phase.object ∨ eventPhase e = none) :
    versPassSubmits t = [] := by
  rw [versPassSubmits, List.filterMap_eq_nil]
  intro e he
  cases e with
  | submit ph q j =>
    rcases h _ he with h1 | h1
    · simp only [eventPhase, Option.some.injEq] at h1
      subst h1
      rfl
    · simp [eventPhase] at h1
  | deleteCall ph q j => rfl
  | drain ph q => rfl
  | deleteBucketCall s => rfl

theorem isVersPassCall_phase {e : Event} (h : isVersPassCall e = true) :
    eventPhase e = some Phase.marker ∨ eventPhase e = some Phase.version := by
  cases e with
  | submit ph q j => simp [isVersPassCall] at h
  | deleteCall ph q j => cases ph <;> simp_all [isVersPassCall, eventPhase]
  | drain ph q => simp [isVersPassCall] at h
  | deleteBucketCall s => simp [isVersPassCall] at h

theorem countP_versPassCall_zero {t : List Event}
    (h : ∀ e ∈ t, eventPhase e = some Phase.object ∨ eventPhase e = none) :
    t.countP isVersPassCall = 0 := by
  rw [List.countP_eq_zero]
  intro e he hcall
  rcases isVersPassCall_phase hcall with h1 | h1 <;>
    rcases h _ he with h2 | h2 <;> rw [h1] at h2 <;> simp at h2

theorem countP_versPassCall_runJobs {vb : Bool} {ok : DeleteObjectInput → Nat → Bool}
    {bd : Nat} {ph : Phase} {p : Nat} {jobs : List DeleteObjectInput}
    (hph : isVersPhase ph = true) :
    (runJobs vb ok bd ph p jobs).1.countP isVersPassCall =
      (runJobs vb ok bd ph p jobs).1.countP isDeleteCallEvent := by
  refine List.countP_congr ?_
  intro e he
  rcases mem_runJobs he with ⟨j, rfl⟩ | ⟨j, rfl⟩ | rfl
  · simp [isVersPassCall, isDeleteCallEvent]
  · cases ph
    · simp [isVersPassCall, isDeleteCallEvent]
    · simp [isVersPassCall, isDeleteCallEvent]
    · simp [isVersPhase] at hph
  · simp [isVersPassCall, isDeleteCallEvent]

theorem logDerefNil_of_isSome {j : DeleteObjectInput} (hk : j.key.isSome = true)
    (hv : j.versionId.isSome = true) : logDerefNil j = false := by
  rcases Option.isSome_iff_exists.mp hk with ⟨x, hx⟩
  rcases Option.isSome_iff_exists.mp hv with ⟨y, hy⟩
  simp [logDerefNil, hx, hy]

theorem wf_markerJobs {bk : String} {ms : List DeleteMarkerEntry}
    (h : ∀ m ∈ ms, m.key.isSome = true ∧ m.versionId.isSome = true) :
    ∀ j ∈ deleteMarkers bk ms, logDerefNil j = false := by
  intro j hj
  rcases List.mem_map.mp hj with ⟨m, hm, rfl⟩
  exact logDerefNil_of_isSome (h m hm).1 (h m hm).2

theorem wf_versionJobs {bk : String} {vs : List ObjectVersion}
    (h : ∀ v ∈ vs, v.key.isSome = true ∧ v.versionId.isSome = true) :
    ∀ j ∈ deleteVersions bk vs, logDerefNil j = false := by
  intro j hj
  rcases List.mem_map.mp hj with ⟨v, hv, rfl⟩
  exact logDerefNil_of_isSome (h v hv).1 (h v hv).2

theorem allVersJobs_cons (bk : String) (pg : ListObjectVersionsOutput)
    (rest : List ListObjectVersionsOutput) :
    allVersJobs bk (pg :: rest) = pageJobs bk pg ++ allVersJobs bk rest := by
  simp [allVersJobs]

theorem runVersPages_wf {vb : Bool} {ok : DeleteObjectInput → Nat → Bool} {bd : Nat}
    {bk : String} (hb : 1 ≤ bd) :
    ∀ {l : List ListObjectVersionsOutput} {q : Nat}, wfVersPages l →
      (runVersPages vb ok bd bk q l).2 = false ∧
      versPassSubmits (runVersPages vb ok bd bk q l).1 = allVersJobs bk l ∧
      (allVersJobs bk l).length ≤
        (runVersPages vb ok bd bk q l).1.countP isVersPassCall := by
  intro l
  induction l with
  | nil =>
    intro q _
    refine ⟨rfl, ?_, ?_⟩
    · simp [runVersPages, versPassSubmits, allVersJobs]
    · simp [runVersPages, allVersJobs]
  | cons pg rest ih =>
    intro q hwf
    have hwfpg := hwf pg (List.mem_cons_self pg rest)
    have hwfm : ∀ j ∈ deleteMarkers bk pg.deleteMarkers, logDerefNil j = false :=
      wf_markerJobs hwfpg.1
    have hwfv : ∀ j ∈ deleteVersions bk pg.versions, logDerefNil j = false :=
      wf_versionJobs hwfpg.2
    have h1f : (runJobs vb ok bd Phase.marker q (deleteMarkers bk pg.deleteMarkers)).2
        = false := runJobs_no_panic hwfm
    have h2f : (runJobs vb ok bd Phase.version q (deleteVersions bk pg.versions)).2
        = false := runJobs_no_panic hwfv
    have hrest := ih (q := q + 1) (fun pg2 hp => hwf pg2 (List.mem_cons_of_mem pg hp))
    have hsub1 : versPassSubmits
        (runJobs vb ok bd Phase.marker q (deleteMarkers bk pg.deleteMarkers)).1 =
        deleteMarkers bk pg.deleteMarkers :=
      @versPassSubmits_runJobs vb ok bd Phase.marker q rfl _ hwfm
    have hsub2 : versPassSubmits
        (runJobs vb ok bd Phase.version q (deleteVersions bk pg.versions)).1 =
        deleteVersions bk pg.versions :=
      @versPassSubmits_runJobs vb ok bd Phase.version q rfl _ hwfv
    have hc1 : (deleteMarkers bk pg.deleteMarkers).length ≤
        (runJobs vb ok bd Phase.marker q (deleteMarkers bk pg.deleteMarkers)).1.countP
          isDeleteCallEvent := runJobs_callCount hb hwfm
    have hc2 : (deleteVersions bk pg.versions).length ≤
        (runJobs vb ok bd Phase.version q (deleteVersions bk pg.versions)).1.countP
          isDeleteCallEvent := runJobs_callCount hb hwfv
    simp only [runVersPages, h1f, h2f, Bool.false_eq_true, if_false]
    refine ⟨hrest.1, ?_, ?_⟩
    · rw [List.append_assoc, versPassSubmits_append, versPassSubmits_append,
        hsub1, hsub2, hrest.2.1, allVersJobs_cons, pageJobs, List.append_assoc]
    · rw [List.append_assoc, List.countP_append, List.countP_append,
        @countP_versPassCall_runJobs vb ok bd Phase.marker q _ rfl,
        @countP_versPassCall_runJobs vb ok bd Phase.version q _ rfl,
        allVersJobs_cons]
      have hlen : (pageJobs bk pg ++ allVersJobs bk rest).length =
          (deleteMarkers bk pg.deleteMarkers).length +
          (deleteVersions bk pg.versions).length + (allVersJobs bk rest).length := by
        simp [pageJobs]
        omega
      rw [hlen]
      have := hrest.2.2
      omega

theorem objTrace_phase (b : Behavior) :
    ∀ e ∈ objTrace b, eventPhase e = some Phase.object ∨ eventPhase e = none := by
  intro e he
  exact Or.inl (eventPhase_of_mem_runObjPages he)

theorem run_versPass (b : Behavior) (hb : 1 ≤ b.budget) (hwf : wfVersPages b.versPages) :
    versPassSubmits (run b).1 = allVersJobs b.bucket b.versPages ∧
      (allVersJobs b.bucket b.versPages).length ≤ (run b).1.countP isVersPassCall := by
  have hmain := @runVersPages_wf b.verbose b.deleteOk b.budget b.bucket hb b.versPages 0 hwf
  have hobj0 : versPassSubmits (objTrace b) = [] :=
    versPassSubmits_nil_of_objPhase (objTrace_phase b)
  have hobjc : (objTrace b).countP isVersPassCall = 0 :=
    countP_versPassCall_zero (objTrace_phase b)
  have hbc : versPassSubmits [Event.deleteBucketCall b.bucket] = [] := rfl
  have hbcc : ([Event.deleteBucketCall b.bucket] : List Event).countP isVersPassCall
      = 0 := rfl
  have hvs : versPassSubmits (versTrace b) = allVersJobs b.bucket b.versPages :=
    hmain.2.1
  have hvc : (allVersJobs b.bucket b.versPages).length ≤
      (versTrace b).countP isVersPassCall := hmain.2.2
  rcases run_cases b with ⟨ht, _⟩ | ⟨ht, _⟩ | ⟨ht, _⟩ <;> rw [ht]
  · exact ⟨hvs, hvc⟩
  · constructor
    · rw [versPassSubmits_append, hobj0, hvs, List.append_nil]
    · rw [List.countP_append, hobjc]
      omega
  · constructor
    · rw [List.append_assoc, versPassSubmits_append, versPassSubmits_append,
        hobj0, hbc, hvs]
      simp
    · rw [List.append_assoc, List.countP_append, List.countP_append, hobjc, hbcc]
      omega

theorem map_jobPair_allVersJobs (bk : String) :
    ∀ pages : List ListObjectVersionsOutput,
      (allVersJobs bk pages).map jobPair = allEntryPairs pages := by
  intro pages
  induction pages with
  | nil => rfl
  | cons pg rest ih =>
    rw [allVersJobs_cons, List.map_append, ih]
    have hpage : (pageJobs bk pg).map jobPair = entryPairs pg := by
      simp [pageJobs, entryPairs, deleteMarkers, deleteVersions, List.map_append,
        List.map_map]
      constructor <;> rfl
    rw [hpage]
    simp [allEntryPairs]

theorem runVersPages_empty {vb : Bool} {ok : DeleteObjectInput → Nat → Bool} {bd : Nat}
    {bk : String} :
    ∀ {l : List ListObjectVersionsOutput} {q : Nat},
      (∀ pg ∈ l, pg.deleteMarkers = [] ∧ pg.versions = []) →
      (runVersPages vb ok bd bk q l).1.countP isDeleteCallEvent = 0 ∧
      (runVersPages vb ok bd bk q l).2 = false := by
  intro l
  induction l with
  | nil => intro q _; exact ⟨rfl, rfl⟩
  | cons pg rest ih =>
    intro q h
    have hpg := h pg (List.mem_cons_self pg rest)
    have hrest := ih (q := q + 1) fun pg2 hp => h pg2 (List.mem_cons_of_mem pg hp)
    have hm : deleteMarkers bk pg.deleteMarkers = [] := by rw [hpg.1]; rfl
    have hv : deleteVersions bk pg.versions = [] := by rw [hpg.2]; rfl
    simp only [runVersPages, hm, hv, runJobs, Bool.false_eq_true, if_false]
    refine ⟨?_, hrest.2⟩
    rw [List.append_assoc, List.countP_append, List.countP_append, hrest.1]
    rfl

theorem runObjPages_empty {vb : Bool} {ok : DeleteObjectInput → Nat → Bool} {bd : Nat}
    {bk : String} :
    ∀ {l : List ListObjectsV2Output} {q : Nat}, (∀ pg ∈ l, pg.contents = []) →
      (runObjPages vb ok bd bk q l).1.countP isDeleteCallEvent = 0 ∧
      (runObjPages vb ok bd bk q l).2 = false := by
  intro l
  induction l with
  | nil => intro q _; exact ⟨rfl, rfl⟩
  | cons pg rest ih =>
    intro q h
    have hpg := h pg (List.mem_cons_self pg rest)
    have hrest := ih (q := q + 1) fun pg2 hp => h pg2 (List.mem_cons_of_mem pg hp)
    have ho : deleteObjects bk pg.contents = [] := by rw [hpg]; rfl
    simp only [runObjPages, ho, runJobs, Bool.false_eq_true, if_false]
    refine ⟨?_, hrest.2⟩
    rw [List.countP_append, hrest.1]
    rfl

theorem run_bucket_once (b : Behavior)
    (hst : (run b).2 = RunStatus.ok ∨ (run b).2 = RunStatus.fatalBucket) :
    (run b).1.countP isBucketCall = 1 ∧
      (run b).1.getLast? = some (Event.deleteBucketCall b.bucket) := by
  rcases run_cases b with ⟨_, h2⟩ | ⟨_, h2⟩ | ⟨ht, _⟩
  · rcases hst with h | h <;> rcases h2 with h1 | h1 <;> rw [h] at h1 <;> simp at h1
  · rcases hst with h | h <;> rw [h] at h2 <;> simp at h2
  · rw [ht]
    constructor
    · rw [List.countP_append, List.countP_append, versTrace_bucket_countP,
        objTrace_bucket_countP]
      rfl
    · exact List.getLast?_concat _

theorem runJobs_cons_continue {vb : Bool} {ok : DeleteObjectInput → Nat → Bool}
    {bd : Nat} {ph : Phase} {p : Nat} {j : DeleteObjectInput}
    {rest : List DeleteObjectInput}
    (h : (deleteS3Object vb (ok j) bd j).outcome ≠ JobOutcome.panicked) :
    (runJobs vb ok bd ph p (j :: rest)).1 =
      jobEvents ph p j (deleteS3Object vb (ok j) bd j).attempts ++
        (runJobs vb ok bd ph p rest).1 ∧
    (runJobs vb ok bd ph p (j :: rest)).2 = (runJobs vb ok bd ph p rest).2 := by
  simp only [runJobs]
  split
  · rename_i hcon
    exact absurd hcon h
  · exact ⟨rfl, rfl⟩

theorem deleteWorkerLoop_attempts {job : DeleteObjectInput} {vb : Bool} {ok : Nat → Bool}
    (h : logDerefNil job = false) :
    ∀ fuel i, (deleteWorkerLoop job vb ok i fuel).attempts = fuel := by
  intro fuel
  induction fuel with
  | zero => intro i; rfl
  | succ fuel ih =>
    intro i
    simp only [deleteWorkerLoop, h, Bool.and_false, Bool.false_eq_true, if_false]
    by_cases hok : ok i = true
    · simp [hok, ih (i + 1)]
    · simp [hok, ih (i + 1)]

theorem markerJob_injective (bk : String) : Function.Injective (markerJob bk) := by
  intro a b h
  cases a
  cases b
  simp only [markerJob, DeleteObjectInput.mk.injEq] at h
  simp [h.1, h.2.1]

/-- C1: for every backend behavior and every page of the versions listing,
every marker-phase event of that page (job spawn, delete call, barrier)
occurs strictly before any version-phase job submission for the same page,
and the marker-phase barrier event (WaitGroup.Wait returned, meaning every
marker job of the page finished by success or exhausted retry) occurs in
the trace strictly before that submission, matching the structure
deleteMarkers(...).Wait() then deleteVersions(...).Wait() of
deleteAllVersions. -/
theorem C1_marker_phase_drained_before_version_submit (b : Behavior) (p j : Nat)
    (job : DeleteObjectInput) (hj : j < (run b).1.length)
    (hv : (run b).1.get ⟨j, hj⟩ = Event.submit Phase.version p job) :
    (∀ i (hi : i < (run b).1.length),
        isMarkerEvent p ((run b).1.get ⟨i, hi⟩) = true → i < j) ∧
    ∃ i, ∃ hi : i < (run b).1.length,
      i < j ∧ (run b).1.get ⟨i, hi⟩ = Event.drain Phase.marker p := by
  have hs := run_rank_sorted b
  have h2 : phaseRank b.versPages.length b.objPages.length ((run b).1.get ⟨j, hj⟩)
      = 2 * p + 1 := by rw [hv]; rfl
  constructor
  · intro i hi hm
    have h1 : phaseRank b.versPages.length b.objPages.length ((run b).1.get ⟨i, hi⟩)
        = 2 * p := rank_of_isMarkerEvent hm
    exact get_lt_of_rank_lt hs hi hj (by omega)
  · have hmem : Event.submit Phase.version p job ∈ (run b).1 := by
      rw [← hv]
      exact List.get_mem _ _ _
    rcases List.get_of_mem (versSubmit_drain_run b hmem) with ⟨⟨i, hi⟩, hget⟩
    refine ⟨i, hi, ?_, hget⟩
    have h1 : phaseRank b.versPages.length b.objPages.length ((run b).1.get ⟨i, hi⟩)
        = 2 * p := by rw [hget]; rfl
    exact get_lt_of_rank_lt hs hi hj (by omega)

theorem C1_witness :
    2 < 3 ∧ ∃ i, ∃ hi : i < (run bA).1.length, i < 3 ∧
      (run bA).1.get ⟨i, hi⟩ = Event.drain Phase.marker 0 := by
  have h := C1_marker_phase_drained_before_version_submit bA 0 3
    (versionJob "t" sampleVersion) (by decide) (by decide)
  exact ⟨h.1 2 (by decide) (by decide), h.2⟩

/-- C2: the claim fails on the code.  The error of ListObjectVersionsPages
is checked (main.go line 193) and is fatal with exit 1 and no bucket delete,
but the error of ListObjectsV2Pages is assigned (line 200) and never
checked: the run is completely insensitive to it, continues to the bucket
delete, and can exit 0, as on the concrete behavior bObjErr. -/
theorem C2_object_listing_error_ignored :
    (∀ b : Behavior, run { b with objErr := true } = run { b with objErr := false }) ∧
    (run bObjErr).2 = RunStatus.ok ∧ exitCode (run bObjErr).2 = 0 ∧
    (run bVersErr).2 = RunStatus.fatalVers ∧ exitCode (run bVersErr).2 = 1 ∧
    (run bVersErr).1.countP isBucketCall = 0 := by
  refine ⟨?_, by decide, by decide, by decide, by decide, by decide⟩
  intro b
  cases b
  rfl

/-- C3: the claim is false on the code.  The executed path has no fixed-size
worker pool and no job queue: deleteMarkers spawns one goroutine per listing
entry before its WaitGroup is waited on, so no fixed bound N caps the number
of concurrently started delete executors over all inputs. -/
theorem C3_counterexample :
    ¬ ∃ N : Nat, ∀ ms : List DeleteMarkerEntry,
        (deleteMarkers "b" ms).length ≤ N := by
  rintro ⟨N, h⟩
  have hN := h (List.replicate (N + 1) sampleMarker)
  simp [deleteMarkers] at hN

/-- C3 amended: in the executed path, deletion work is performed by spawning
one independent goroutine per listing entry, with no pool, no queue and no
concurrency bound: every entry yields exactly one spawned executor (none
dropped, none duplicated), and the number of executors started for a page
before its barrier equals the page entry count.  (The channel-consuming
deleteWorker with its fixed worker count exists in the source but has no
call site.) -/
theorem C3_amended_goroutine_per_entry (bk : String) (ms : List DeleteMarkerEntry)
    (m : DeleteMarkerEntry) :
    (deleteMarkers bk ms).length = ms.length ∧
    (deleteMarkers bk ms).count (markerJob bk m) = ms.count m := by
  refine ⟨by simp [deleteMarkers], ?_⟩
  exact List.count_map_of_injective ms (markerJob bk) (markerJob_injective bk) m

/-- C4: the claim is false on the code: deleteS3Object logs a warning on
every failed attempt (the warning call at main.go line 110 sits inside the
closure that backoff.Retry re-invokes), not exactly once for the exhausted
job; with a budget of 2 attempts and a job that fails on both, 2 warnings
are logged. -/
theorem C4_counterexample :
    ¬ (deleteS3Object false (fun _ => false) 2 jobA).warns = 1 := by
  decide

/-- C4 amended: for every job carrying both Key and VersionId whose delete
call fails on every attempt of a retry budget of bd attempts (bd at least
1, as the backoff policy always permits a first attempt), the executor
produces exactly one exhausted outcome, makes exactly bd delete calls, logs
one warning per failed attempt (bd warnings in total, not one), does not
panic, and the surrounding spawn-and-wait round simply continues with the
remaining jobs of the page: neither the worker, nor the pool, nor the run
is aborted. -/
theorem C4_amended_exhaustion (vb : Bool) (okA : Nat → Bool) (bd : Nat)
    (job : DeleteObjectInput) (ph : Phase) (p : Nat)
    (rest : List DeleteObjectInput) (ok : DeleteObjectInput → Nat → Bool)
    (hb : 1 ≤ bd) (hfail : ∀ n, okA n = false) (hk : job.key.isSome = true)
    (hv : job.versionId.isSome = true) (hok : ok job = okA) :
    (deleteS3Object vb okA bd job).outcome = JobOutcome.exhausted ∧
    (deleteS3Object vb okA bd job).attempts = bd ∧
    (deleteS3Object vb okA bd job).warns = bd ∧
    (deleteS3Object vb okA bd job).outcome ≠ JobOutcome.panicked ∧
    (runJobs vb ok bd ph p (job :: rest)).1 =
      jobEvents ph p job bd ++ (runJobs vb ok bd ph p rest).1 ∧
    (runJobs vb ok bd ph p (job :: rest)).2 = (runJobs vb ok bd ph p rest).2 := by
  have hderef := logDerefNil_of_isSome hk hv
  have hchar := @deleteS3Object_all_fail vb okA bd job hb hderef hfail
  have hout : (deleteS3Object vb okA bd job).outcome ≠ JobOutcome.panicked := by
    rw [hchar]
    simp
  have hcont := @runJobs_cons_continue vb ok bd ph p job rest (by rw [hok]; exact hout)
  have h1 := hcont.1
  rw [hok, hchar] at h1
  exact ⟨by rw [hchar], by rw [hchar], by rw [hchar], hout, h1, hcont.2⟩

theorem C4_witness :
    (deleteS3Object false (fun _ => false) 2 jobA).outcome = JobOutcome.exhausted ∧
    (deleteS3Object false (fun _ => false) 2 jobA).warns = 2 := by
  have h := C4_amended_exhaustion false (fun _ => false) 2 jobA Phase.marker 0 []
    (fun _ _ => false) (by decide) (fun _ => rfl) (by decide) (by decide) rfl
  exact ⟨h.1, h.2.2.1⟩

/-- C5: phases are strictly ordered across the whole run: every event of the
versions-and-markers pass precedes every event of the plain-objects pass,
every event of the plain-objects pass precedes the bucket delete call, and
whenever the run reaches finalization (status ok or fatalBucket), the
bucket delete call appears exactly once, as the very last event of the
trace, matching main calling deleteAllVersions before deleteBucket. -/
theorem C5_phase_order (b : Behavior) :
    (∀ i j (hi : i < (run b).1.length) (hj : j < (run b).1.length),
        isVersPassEvent ((run b).1.get ⟨i, hi⟩) = true →
        isObjPassEvent ((run b).1.get ⟨j, hj⟩) = true → i < j) ∧
    (∀ i j (hi : i < (run b).1.length) (hj : j < (run b).1.length),
        isObjPassEvent ((run b).1.get ⟨i, hi⟩) = true →
        isBucketCall ((run b).1.get ⟨j, hj⟩) = true → i < j) ∧
    ((run b).2 = RunStatus.ok ∨ (run b).2 = RunStatus.fatalBucket →
      (run b).1.countP isBucketCall = 1 ∧
      (run b).1.getLast? = some (Event.deleteBucketCall b.bucket)) := by
  have hs := run_rank_sorted b
  refine ⟨?_, ?_, run_bucket_once b⟩
  · intro i j hi hj hvp hop
    have h1 := rank_lt_of_versPass_mem b (List.get_mem _ _ _) hvp
    have h2 := (rank_of_objPass_mem b (List.get_mem _ _ _) hop).1
    exact get_lt_of_rank_lt hs hi hj (by omega)
  · intro i j hi hj hop hbc
    have h1 := (rank_of_objPass_mem b (List.get_mem _ _ _) hop).2
    rcases isBucketCall_shape hbc with ⟨s, hsx⟩
    have h2 : phaseRank b.versPages.length b.objPages.length ((run b).1.get ⟨j, hj⟩)
        = 2 * b.versPages.length + b.objPages.length := by rw [hsx]; rfl
    exact get_lt_of_rank_lt hs hi hj (by omega)

theorem C5_witness :
    5 < 6 ∧ 8 < 9 ∧ ((run bA).1.countP isBucketCall = 1 ∧
      (run bA).1.getLast? = some (Event.deleteBucketCall "t")) := by
  have h := C5_phase_order bA
  exact ⟨h.1 5 6 (by decide) (by decide) (by decide) (by decide),
    h.2.1 8 9 (by decide) (by decide) (by decide) (by decide),
    h.2.2 (Or.inl (by decide))⟩

/-- C6: whenever the run reaches the final bucket delete (no goroutine
panicked and the versions listing succeeded) and that call fails — for any
reason, including a bucket left non-empty by abandoned jobs — the run ends
with status fatalBucket and exit code 1 via exitErrorf, and the bucket
delete was issued exactly once (never retried), as the last call of the
run. -/
theorem C6_finalize_failure_fatal (b : Behavior)
    (hnp : (run b).2 ≠ RunStatus.panicked) (hv : b.versErr = false)
    (hbk : b.deleteBucketOk = false) :
    (run b).2 = RunStatus.fatalBucket ∧ exitCode (run b).2 = 1 ∧
    (run b).1.countP isBucketCall = 1 ∧
    (run b).1.getLast? = some (Event.deleteBucketCall b.bucket) := by
  by_cases h1 : (runVersPages b.verbose b.deleteOk b.budget b.bucket 0 b.versPages).2 = true
  · rw [run_of_versPanic h1] at hnp
    simp at hnp
  · have h1f : (runVersPages b.verbose b.deleteOk b.budget b.bucket 0 b.versPages).2
        = false := by simpa using h1
    by_cases h3 : (runObjPages b.verbose b.deleteOk b.budget b.bucket 0 b.objPages).2 = true
    · rw [run_of_objPanic h1f hv h3] at hnp
      simp at hnp
    · have h3f : (runObjPages b.verbose b.deleteOk b.budget b.bucket 0 b.objPages).2
          = false := by simpa using h3
      have hr := run_of_finalize h1f hv h3f
      rw [hbk] at hr
      simp only [Bool.false_eq_true, if_false] at hr
      have hst : (run b).2 = RunStatus.fatalBucket := by rw [hr]
      have honce := run_bucket_once b (Or.inr hst)
      exact ⟨hst, by rw [hst]; rfl, honce.1, honce.2⟩

theorem C6_witness :
    (run bBucketFail).2 = RunStatus.fatalBucket ∧
    exitCode (run bBucketFail).2 = 1 ∧
    (run bBucketFail).1.countP isBucketCall = 1 ∧
    (run bBucketFail).1.getLast? = some (Event.deleteBucketCall "t") :=
  C6_finalize_failure_fatal bBucketFail (by decide) (by decide) (by decide)

/-- C7: a run against an already empty bucket — every page of both listings
has zero entries, the versions listing succeeds, and the bucket delete
succeeds — issues zero delete-object calls, proceeds to the bucket delete
(issued exactly once), and exits with status ok and exit code 0. -/
theorem C7_empty_bucket (b : Behavior)
    (hvp : ∀ pg ∈ b.versPages, pg.deleteMarkers = [] ∧ pg.versions = [])
    (hop : ∀ pg ∈ b.objPages, pg.contents = [])
    (hv : b.versErr = false) (hbk : b.deleteBucketOk = true) :
    (run b).1.countP isDeleteCallEvent = 0 ∧ (run b).2 = RunStatus.ok ∧
    exitCode (run b).2 = 0 ∧ (run b).1.countP isBucketCall = 1 := by
  have hvers := @runVersPages_empty b.verbose b.deleteOk b.budget b.bucket b.versPages 0 hvp
  have hobj := @runObjPages_empty b.verbose b.deleteOk b.budget b.bucket b.objPages 0 hop
  have hr := run_of_finalize hvers.2 hv hobj.2
  rw [hbk] at hr
  simp only [if_true] at hr
  have hst : (run b).2 = RunStatus.ok := by rw [hr]
  refine ⟨?_, hst, by rw [hst]; rfl, (run_bucket_once b (Or.inl hst)).1⟩
  rw [hr]
  show (versTrace b ++ objTrace b ++
    [Event.deleteBucketCall b.bucket]).countP isDeleteCallEvent = 0
  rw [List.countP_append, List.countP_append]
  have h1 : (versTrace b).countP isDeleteCallEvent = 0 := hvers.1
  have h2 : (objTrace b).countP isDeleteCallEvent = 0 := hobj.1
  rw [h1, h2]
  rfl

theorem C7_witness :
    (run bEmpty).1.countP isDeleteCallEvent = 0 ∧ (run bEmpty).2 = RunStatus.ok ∧
    exitCode (run bEmpty).2 = 0 ∧ (run bEmpty).1.countP isBucketCall = 1 :=
  C7_empty_bucket bEmpty (by decide) (by decide) rfl rfl

/-- C8: for every behavior whose versions listing is well formed (the
backend populates Key and VersionId of every marker and version entry) and
whose backoff policy permits at least one attempt, the run issues at least
M + N delete calls during the versions-and-markers pass — M and N being the
total numbers of marker and version entries across all pages — and the jobs
spawned in that pass are exactly the listing entries in listing order: each
(key, versionId) pair occurs among the spawned jobs exactly as often as
among the listing entries, so no entry is dropped and none is duplicated
into two jobs. -/
theorem C8_completeness (b : Behavior) (hb : 1 ≤ b.budget)
    (hwf : wfVersPages b.versPages) :
    (allEntryPairs b.versPages).length ≤ (run b).1.countP isVersPassCall ∧
    (versPassSubmits (run b).1).map jobPair = allEntryPairs b.versPages ∧
    ∀ pr : Option String × Option String,
      ((versPassSubmits (run b).1).map jobPair).count pr =
        (allEntryPairs b.versPages).count pr := by
  have h := run_versPass b hb hwf
  have hmap := map_jobPair_allVersJobs b.bucket b.versPages
  have hlen : (allEntryPairs b.versPages).length =
      (allVersJobs b.bucket b.versPages).length := by
    rw [← hmap, List.length_map]
  refine ⟨by rw [hlen]; exact h.2, ?_, ?_⟩
  · rw [h.1, hmap]
  · intro pr
    rw [h.1, hmap]

theorem C8_witness :
    2 ≤ (run bA).1.countP isVersPassCall ∧
    (versPassSubmits (run bA).1).map jobPair = allEntryPairs bA.versPages ∧
    ((versPassSubmits (run bA).1).map jobPair).count (some "k", some "v1") =
      (allEntryPairs bA.versPages).count (some "k", some "v1") := by
  have h := C8_completeness bA (by decide) (by unfold wfVersPages; decide)
  exact ⟨h.1, h.2.1, h.2.2 (some "k", some "v1")⟩

/-- C9: the claim is false on the code: in deleteWorker a failed delete
attempt is not terminal.  After the first attempt of a job fails, the for
loop proceeds to the next iteration (the warning branch falls through, and
the continue on the success branch merely advances the loop), so a job
whose attempts all fail receives 4 delete attempts, not 1. -/
theorem C9_counterexample :
    ¬ (deleteWorker false (fun _ => false) jobA).attempts ≤ 1 := by
  decide

/-- C9 amended: deleteWorker performs exactly 4 delete attempts for every
job whose Key and VersionId are populated, regardless of which attempts
fail or succeed: a failure is retried on the next iteration, and even a
success does not terminate the loop, because its continue statement merely
advances the fixed 4-iteration loop. -/
theorem C9_amended_always_four_attempts (vb : Bool) (ok : Nat → Bool)
    (job : DeleteObjectInput) (hk : job.key.isSome = true)
    (hv : job.versionId.isSome = true) :
    (deleteWorker vb ok job).attempts = 4 :=
  deleteWorkerLoop_attempts (logDerefNil_of_isSome hk hv) 4 0

theorem C9_witness : (deleteWorker true (fun i => i == 1) jobA).attempts = 4 :=
  C9_amended_always_four_attempts true (fun i => i == 1) jobA (by decide) (by decide)

/-- C10: the claim states the intended behavior, and the code violates it:
deleteS3Object dereferences s3Object.VersionId unconditionally in both of
its logging lines (main.go lines 107 and 110), while deleteObjects builds
plain-object jobs without a VersionId, so a plain-object job panics on a
nil pointer dereference as soon as verbose logging is enabled (first
conjunct) or a delete attempt fails (second conjunct); only the non-verbose
all-success path never evaluates the dereference (third conjunct). -/
theorem C10_nil_versionId_deref :
    (deleteS3Object true (fun _ => true) 1 (objectJob "b" sampleObject)).outcome
      = JobOutcome.panicked ∧
    (deleteS3Object false (fun _ => false) 2 (objectJob "b" sampleObject)).outcome
      = JobOutcome.panicked ∧
    (deleteS3Object false (fun _ => true) 1 (objectJob "b" sampleObject)).outcome
      = JobOutcome.success := by
  decide
